import Mathlib

/-!
Shallow embedding of the auction-simulator Go program
(`pkg/models/types.go`, `internal/auction`, `internal/bidder`,
`internal/manager`) and proofs of its specified properties.

Monetary amounts (Go `float64` values produced by arithmetic on `[0,1)`
draws, hence always finite and non-NaN, on which the program only uses
`>` and `==`) are embedded as `ℚ`; time instants (`time.Time`, compared
with `Before`/`After`) are embedded as integer nanosecond instants.
-/

set_option autoImplicit false

namespace AuctionSim

/-- Models `Bid` of `pkg/models/types.go`: bidder identifier, monetary
amount, submission timestamp. -/
structure Bid where
  bidderID : Nat
  amount : ℚ
  timestamp : Int
deriving DecidableEq, Repr

/-- Models the state of `Auction` in `pkg/models/types.go` that the
verified operations touch: identifier, ordered bid sequence, resolved
winner, total-bid count, start and end instants. -/
structure Auction where
  id : Nat
  bids : List Bid
  winner : Option Bid
  totalBids : Nat
  startTime : Int
  endTime : Int
deriving DecidableEq, Repr

/-- Models `models.NewAuction`: fresh auction with an empty bid sequence
(zero values for the remaining fields). -/
def NewAuction (id : Nat) : Auction :=
  { id := id, bids := [], winner := none, totalBids := 0,
    startTime := 0, endTime := 0 }

/-- Models `(*Auction).AddBid`: append the bid to the bid sequence. -/
def AddBid (a : Auction) (b : Bid) : Auction :=
  { a with bids := a.bids ++ [b] }

/-- Models the loop body of `(*Auction).DetermineWinner`: the candidate
`c` replaces the current best `w` iff `c.Amount > w.Amount`, or the
amounts are equal and `c.Timestamp` is before `w.Timestamp`. -/
def pickBetter (w c : Bid) : Bid :=
  if c.amount > w.amount then c
  else if c.amount = w.amount ∧ c.timestamp < w.timestamp then c
  else w

/-- Models the scan of `DetermineWinner`: start from the first bid and
fold `pickBetter` over the rest; `none` on an empty sequence. -/
def findWinner (bids : List Bid) : Option Bid :=
  match bids with
  | [] => none
  | b :: rest => some (rest.foldl pickBetter b)

/-- Models `(*Auction).DetermineWinner`: set `TotalBids` to the length of
the bid sequence and `Winner` to the result of the scan. -/
def DetermineWinner (a : Auction) : Auction :=
  { a with totalBids := a.bids.length, winner := findWinner a.bids }

/-- Winner dominance order: `w` dominates `b` when `b`'s amount is no
greater, and on equal amounts `w`'s timestamp is no later. -/
def Dominates (w b : Bid) : Prop :=
  b.amount ≤ w.amount ∧ (b.amount = w.amount → w.timestamp ≤ b.timestamp)

theorem dominates_rfl (w : Bid) : Dominates w w :=
  ⟨le_refl _, fun _ => le_refl _⟩

theorem dominates_trans {x y z : Bid} (hxy : Dominates x y) (hzx : Dominates z x) :
    Dominates z y := by
  refine ⟨le_trans hxy.1 hzx.1, fun h => ?_⟩
  have hyx : y.amount = x.amount := le_antisymm hxy.1 (h ▸ hzx.1)
  have h1 := hxy.2 hyx
  have h2 := hzx.2 (hyx ▸ h)
  exact le_trans h2 h1

theorem pickBetter_dominates_left (w c : Bid) : Dominates (pickBetter w c) w := by
  unfold pickBetter
  by_cases h1 : c.amount > w.amount
  · simp only [h1, if_true]
    exact ⟨le_of_lt h1, fun h => absurd h1 (by rw [h]; exact lt_irrefl _)⟩
  · simp only [h1, if_false]
    by_cases h2 : c.amount = w.amount ∧ c.timestamp < w.timestamp
    · simp only [h2, if_true]
      exact ⟨le_of_eq h2.1.symm, fun _ => le_of_lt h2.2⟩
    · simp only [h2, if_false]
      exact dominates_rfl w

theorem pickBetter_dominates_right (w c : Bid) : Dominates (pickBetter w c) c := by
  unfold pickBetter
  by_cases h1 : c.amount > w.amount
  · simp only [h1, if_true]
    exact dominates_rfl c
  · simp only [h1, if_false]
    by_cases h2 : c.amount = w.amount ∧ c.timestamp < w.timestamp
    · simp only [h2, if_true]
      exact dominates_rfl c
    · simp only [h2, if_false]
      refine ⟨not_lt.mp h1, fun h => ?_⟩
      rcases not_and_or.mp h2 with h3 | h3
      · exact absurd h h3
      · exact not_lt.mp h3

theorem pickBetter_eq_or (w c : Bid) :
    pickBetter w c = w ∨ pickBetter w c = c := by
  unfold pickBetter
  by_cases h1 : c.amount > w.amount
  · simp [h1]
  · by_cases h2 : c.amount = w.amount ∧ c.timestamp < w.timestamp
    · simp [h1, h2]
    · simp [h1, h2]

theorem foldl_pickBetter_mem :
    ∀ (l : List Bid) (w : Bid), l.foldl pickBetter w = w ∨ l.foldl pickBetter w ∈ l := by
  intro l
  induction l with
  | nil => intro w; exact Or.inl rfl
  | cons b rest ih =>
    intro w
    simp only [List.foldl_cons]
    rcases ih (pickBetter w b) with h | h
    · rcases pickBetter_eq_or w b with h2 | h2
      · exact Or.inl (h.trans h2)
      · exact Or.inr (by rw [h, h2]; exact List.mem_cons_self _ _)
    · exact Or.inr (List.mem_cons_of_mem _ h)

theorem foldl_pickBetter_dominates_init :
    ∀ (l : List Bid) (w : Bid), Dominates (l.foldl pickBetter w) w := by
  intro l
  induction l with
  | nil => intro w; exact dominates_rfl w
  | cons b rest ih =>
    intro w
    simp only [List.foldl_cons]
    exact dominates_trans (pickBetter_dominates_left w b) (ih (pickBetter w b))

theorem foldl_pickBetter_dominates_mem :
    ∀ (l : List Bid) (w : Bid), ∀ b ∈ l, Dominates (l.foldl pickBetter w) b := by
  intro l
  induction l with
  | nil => intro w b hb; exact absurd hb (List.not_mem_nil b)
  | cons c rest ih =>
    intro w b hb
    simp only [List.foldl_cons]
    rcases List.mem_cons.mp hb with h | h
    · subst h
      exact dominates_trans (pickBetter_dominates_right w b)
        (foldl_pickBetter_dominates_init rest (pickBetter w b))
    · exact ih (pickBetter w c) b h

/-- C1: on every non-empty bid sequence, `DetermineWinner` selects a bid
of the sequence whose amount is maximal, and among the bids sharing that
maximal amount its timestamp is earliest. -/
theorem determineWinner_selects_max (a : Auction) (h : a.bids ≠ []) :
    ∃ w, (DetermineWinner a).winner = some w ∧ w ∈ a.bids ∧
      (∀ b ∈ a.bids, b.amount ≤ w.amount) ∧
      (∀ b ∈ a.bids, b.amount = w.amount → w.timestamp ≤ b.timestamp) := by
  match hb : a.bids with
  | [] => exact absurd hb h
  | b :: rest =>
    refine ⟨rest.foldl pickBetter b, ?_, ?_, ?_, ?_⟩
    · simp [DetermineWinner, findWinner, hb]
    · rcases foldl_pickBetter_mem rest b with h2 | h2
      · rw [h2]; exact List.mem_cons_self _ _
      · exact List.mem_cons_of_mem _ h2
    · intro x hx
      rcases List.mem_cons.mp hx with rfl | h2
      · exact (foldl_pickBetter_dominates_init rest _).1
      · exact (foldl_pickBetter_dominates_mem rest b x h2).1
    · intro x hx hamt
      rcases List.mem_cons.mp hx with rfl | h2
      · exact (foldl_pickBetter_dominates_init rest _).2 hamt
      · exact (foldl_pickBetter_dominates_mem rest b x h2).2 hamt

/-- Sample auction used to instantiate hypotheses at concrete inputs. -/
def sampleAuction : Auction :=
  AddBid (AddBid (AddBid (NewAuction 1)
    { bidderID := 1, amount := 5, timestamp := 10 })
    { bidderID := 2, amount := 7, timestamp := 3 })
    { bidderID := 3, amount := 7, timestamp := 8 }

/-- Witness for C1 at a concrete three-bid auction. -/
theorem determineWinner_selects_max_witness :
    ∃ w, (DetermineWinner sampleAuction).winner = some w ∧ w ∈ sampleAuction.bids ∧
      (∀ b ∈ sampleAuction.bids, b.amount ≤ w.amount) ∧
      (∀ b ∈ sampleAuction.bids, b.amount = w.amount → w.timestamp ≤ b.timestamp) :=
  determineWinner_selects_max sampleAuction (by decide)

/-- C2: after `DetermineWinner`, the total-bid count equals the length of
the bid sequence, the winner is absent iff the bid sequence is empty, and
a present winner is an element of the bid sequence. -/
theorem determineWinner_invariants (a : Auction) :
    (DetermineWinner a).totalBids = (DetermineWinner a).bids.length ∧
    ((DetermineWinner a).winner = none ↔ (DetermineWinner a).bids = []) ∧
    (∀ w, (DetermineWinner a).winner = some w → w ∈ (DetermineWinner a).bids) := by
  refine ⟨rfl, ?_, ?_⟩
  · match hb : a.bids with
    | [] => simp [DetermineWinner, findWinner, hb]
    | b :: rest => simp [DetermineWinner, findWinner, hb]
  · intro w hw
    match hb : a.bids with
    | [] => simp [DetermineWinner, findWinner, hb] at hw
    | b :: rest =>
      simp only [DetermineWinner, hb, findWinner, Option.some.injEq] at hw
      rcases foldl_pickBetter_mem rest b with h2 | h2
      · rw [← hw, h2]; exact List.mem_cons_self _ _
      · rw [← hw]; exact List.mem_cons_of_mem _ h2

/-- Witness for C2 at a concrete three-bid auction. -/
theorem determineWinner_invariants_witness :
    (DetermineWinner sampleAuction).totalBids = (DetermineWinner sampleAuction).bids.length ∧
    ((DetermineWinner sampleAuction).winner = none ↔ (DetermineWinner sampleAuction).bids = []) ∧
    (∀ w, (DetermineWinner sampleAuction).winner = some w →
      w ∈ (DetermineWinner sampleAuction).bids) :=
  determineWinner_invariants sampleAuction

/-- C10: `DetermineWinner` is idempotent — it recomputes `Winner` and
`TotalBids` from the unchanged bid sequence, so a second invocation with
no intervening `AddBid` leaves the auction state fixed. -/
theorem determineWinner_idempotent (a : Auction) :
    DetermineWinner (DetermineWinner a) = DetermineWinner a := rfl

/-- Models the bid channel `bidChan` of `internal/auction.Run`: a Go
buffered channel (`make(chan models.Bid, 200)`) that `Run` eventually
closes (`close(bidChan)` after the collection loop exits). -/
structure BidChan where
  buffer : List Bid
  cap : Nat
  closed : Bool
deriving DecidableEq, Repr

/-- Models the submission step of `bidder.placeBid`,
`select { case bidChan <- bid: default: }`, under the Go specification:
a send on a closed channel proceeds by causing a run-time panic, and in a
`select` such a send case counts as able to proceed, so the `default`
branch does not guard against it (`Except.error` models the panic).
On an open channel whose buffer has room the bid is enqueued; on an open
channel with a full buffer and no ready receiver the `default` branch
runs and the bid is silently dropped. -/
def trySubmit (ch : BidChan) (b : Bid) : Except String BidChan :=
  if ch.closed then Except.error "send on closed channel"
  else if ch.buffer.length < ch.cap then Except.ok { ch with buffer := ch.buffer ++ [b] }
  else Except.ok ch

/-- Models the channel state after `internal/auction.Run` has executed
`close(bidChan)` (line 49), with whatever undrained bids remain. -/
def closedBidChan (buf : List Bid) : BidChan :=
  { buffer := buf, cap := 200, closed := true }

/-- A late bid whose goroutine is scheduled after the auction closed. -/
def lateBid : Bid :=
  { bidderID := 7, amount := 250, timestamp := 5001 }

/-- C3: a bid submission that executes after `auction.Run` has closed the
bid channel is not a safe no-op — the `select` send on the closed channel
panics rather than falling through to `default`. -/
theorem trySubmit_after_close_panics :
    trySubmit (closedBidChan []) lateBid = Except.error "send on closed channel" := rfl

/-- Models the collection loop of `internal/auction.Run` from the moment
the timeout deadline fires. The loop is
`select { case bid := <-bidChan: auction.AddBid(bid); case <-auctionCtx.Done(): return }`
with the `Done` case permanently ready once the deadline has fired. While
bids are still waiting in the channel both cases are ready and Go chooses
between them by uniform pseudo-random selection, modelled by the oracle
`choices` (`true` = receive case, append the bid; `false` = done case,
exit); with an empty channel only `Done` is ready and the loop exits (an
exhausted oracle is read as choosing the done case). `pending` is the
queue of bids waiting in the channel when the deadline fires, `acc` the
bid sequence collected so far. -/
def drainAfterDeadline : List Bool → List Bid → List Bid → List Bid
  | _, [], acc => acc
  | [], _ :: _, acc => acc
  | c :: cs, b :: rest, acc =>
    if c then drainAfterDeadline cs rest (acc ++ [b]) else acc

/-- C4 counterexample: a bid still waiting in the channel when the
deadline fires is appended to the auction whenever Go's random `select`
picks the receive case, so the deadline is not a hard wall for bids
already submitted. -/
theorem drainAfterDeadline_appends_waiting_bid :
    drainAfterDeadline [true] [lateBid] [] = [lateBid] ∧
    drainAfterDeadline [true] [lateBid] [] ≠ [] := by
  constructor
  · rfl
  · intro h
    simp [drainAfterDeadline] at h

/-- C4 (amended): after the deadline fires the collection loop appends
exactly the prefix of the waiting queue selected by the consecutive
receive-choices of the random `select`, and stops at the first
done-choice or when the queue empties — no bid that was not already
submitted to the channel is appended after the deadline. -/
theorem drainAfterDeadline_appends_only_waiting :
    ∀ (choices : List Bool) (pending acc : List Bid),
      drainAfterDeadline choices pending acc =
        acc ++ pending.take (choices.takeWhile (fun c => c)).length := by
  intro choices
  induction choices with
  | nil =>
    intro pending acc
    match pending with
    | [] => simp [drainAfterDeadline]
    | b :: rest => simp [drainAfterDeadline, List.takeWhile]
  | cons c cs ih =>
    intro pending acc
    match pending with
    | [] => simp [drainAfterDeadline]
    | b :: rest =>
      match hc : c with
      | true =>
        simp only [drainAfterDeadline, if_true, ih rest (acc ++ [b]),
          List.takeWhile]
        simp [List.take]
      | false =>
        simp [drainAfterDeadline, List.takeWhile]

/-- Models `10 + rand.Intn(490)` of `bidder.placeBid` (line 37): the
simulated processing delay in milliseconds. `rand.Intn(490)` returns a
uniform integer in `{0, …, 489}`, modelled by reducing an arbitrary draw
`r` modulo 490. -/
def processingDelayMs (r : Nat) : Nat := 10 + r % 490

/-- C5 counterexample: the delay 500 ms is never produced —
`10 + rand.Intn(490)` is at most 499. -/
theorem processingDelayMs_ne_500 : ¬ ∃ r : Nat, processingDelayMs r = 500 := by
  rintro ⟨r, hr⟩
  have h : r % 490 < 490 := Nat.mod_lt _ (by decide)
  simp only [processingDelayMs] at hr
  omega

/-- C5 (amended): the set of possible simulated processing delays is
exactly the integers from 10 to 499 milliseconds inclusive. -/
theorem processingDelayMs_range (v : Nat) :
    (∃ r : Nat, processingDelayMs r = v) ↔ 10 ≤ v ∧ v ≤ 499 := by
  constructor
  · rintro ⟨r, hr⟩
    have h : r % 490 < 490 := Nat.mod_lt _ (by decide)
    simp only [processingDelayMs] at hr
    omega
  · rintro ⟨h1, h2⟩
    refine ⟨v - 10, ?_⟩
    have h : (v - 10) % 490 = v - 10 := Nat.mod_eq_of_lt (by omega)
    simp only [processingDelayMs, h]
    omega

/-- Models the single global `math/rand` stream fixed by `rand.Seed` in
`main`: draw number `n` of the run is `stream n`. All goroutines share
this one stream. -/
def RandStream : Type := Nat → ℚ

/-- Models the attribute generation of `internal/auction.Run` (lines
16-18): the auction takes 20 consecutive draws from the shared stream.
Which positions of the stream those draws occupy — `start` — is decided
by the scheduler's interleaving of this goroutine with the 39 other
auction goroutines and the bidder goroutines consuming the same stream;
nothing in the code fixes it. -/
def genAttributes (stream : RandStream) (start : Nat) : Fin 20 → ℚ :=
  fun i => stream (start + i.val)

/-- C6: with the seed (hence the stream) fixed, the attribute vector an
auction receives still depends on the stream positions the scheduler
hands its goroutine: consuming positions 0-19 and consuming positions
20-39 of the very same stream yield different attribute vectors, so two
runs that interleave the goroutines differently are not bit-identical. -/
theorem genAttributes_schedule_dependent :
    genAttributes (fun n => (n : ℚ)) 0 ≠ genAttributes (fun n => (n : ℚ)) 20 := by
  intro h
  have h0 := congrFun h ⟨0, by decide⟩
  simp only [genAttributes, Nat.add_zero, Nat.zero_add, Nat.cast_ofNat] at h0
  norm_num at h0

/-- Models `manager.NumAuctions`. -/
def NumAuctions : Nat := 40

/-- Models `manager.NumBidders`. -/
def NumBidders : Nat := 100

/-- The runner identifiers `1..NumAuctions` handed to `auction.Run` by
`manager.Run`'s launch loop (`for i := 1; i <= NumAuctions; i++`). -/
def auctionIDs : List Nat := (List.range NumAuctions).map (· + 1)

/-- Models the fan-in of `manager.Run`: each runner sends exactly one
completed auction on the `results` channel; `wg.Wait` closes the channel
only after every runner has sent, and the collection loop
(`for result := range results`) appends every sent result in arrival
order. `runnerResult i` is runner `i`'s single emitted auction and
`arrival` the order in which the sends are observed. -/
def managerCollect (runnerResult : Nat → Auction) (arrival : List Nat) : List Auction :=
  arrival.map runnerResult

/-- C7: when every runner emits exactly one result (`arrival` is a
permutation of the runner identifiers) and each runner's auction carries
its own identifier (`auction.Run` builds `NewAuction(auctionID, …)`),
the collected result list has exactly `NumAuctions` entries and contains
exactly one result per runner identifier. -/
theorem managerCollect_one_result_per_runner
    (runnerResult : Nat → Auction) (arrival : List Nat)
    (hperm : arrival.Perm auctionIDs)
    (hid : ∀ i, (runnerResult i).id = i) :
    (managerCollect runnerResult arrival).length = NumAuctions ∧
    ∀ i ∈ auctionIDs, ((managerCollect runnerResult arrival).map Auction.id).count i = 1 := by
  have hmap : (managerCollect runnerResult arrival).map Auction.id = arrival := by
    simp only [managerCollect, List.map_map]
    have : arrival.map (Auction.id ∘ runnerResult) = arrival.map (fun i => i) :=
      List.map_congr_left (fun a _ => hid a)
    rw [this, List.map_id']
  constructor
  · simp only [managerCollect, List.length_map, hperm.length_eq]
    decide
  · intro i hi
    rw [hmap, hperm.count_eq]
    exact List.count_eq_one_of_mem (by decide) hi

/-- Witness for C7: runners emitting `NewAuction i` in identifier order. -/
theorem managerCollect_one_result_per_runner_witness :
    (managerCollect NewAuction auctionIDs).length = NumAuctions ∧
    ∀ i ∈ auctionIDs, ((managerCollect NewAuction auctionIDs).map Auction.id).count i = 1 :=
  managerCollect_one_result_per_runner NewAuction auctionIDs
    (List.Perm.refl _) (fun _ => rfl)

/-- Models the body of the bounds loop of `manager.Run` (lines 85-92):
keep the earlier start (`a.StartTime.Before(firstStart)`) and the later
end (`a.EndTime.After(lastEnd)`). -/
def boundsStep (acc : Int × Int) (x : Auction) : Int × Int :=
  (if x.startTime < acc.1 then x.startTime else acc.1,
   if acc.2 < x.endTime then x.endTime else acc.2)

/-- Models the global-bounds computation of `manager.Run` (lines 80-93):
`none` on an empty result list, otherwise initialise both bounds from the
first result and fold the comparison loop over the whole list. -/
def computeBounds (results : List Auction) : Option (Int × Int) :=
  match results with
  | [] => none
  | a :: rest => some ((a :: rest).foldl boundsStep (a.startTime, a.endTime))

theorem boundsFold_fst_le :
    ∀ (l : List Auction) (acc : Int × Int),
      (l.foldl boundsStep acc).1 ≤ acc.1 ∧
      ∀ a ∈ l, (l.foldl boundsStep acc).1 ≤ a.startTime := by
  intro l
  induction l with
  | nil => intro acc; exact ⟨le_refl _, fun a ha => absurd ha (List.not_mem_nil a)⟩
  | cons x rest ih =>
    intro acc
    simp only [List.foldl_cons]
    have hstep_le : (boundsStep acc x).1 ≤ acc.1 := by
      simp only [boundsStep]
      by_cases hx : x.startTime < acc.1
      · simp [hx]; exact le_of_lt hx
      · simp [hx]
    have hstep_x : (boundsStep acc x).1 ≤ x.startTime := by
      simp only [boundsStep]
      by_cases hx : x.startTime < acc.1
      · simp [hx]
      · simp [hx]; exact not_lt.mp hx
    refine ⟨le_trans (ih (boundsStep acc x)).1 hstep_le, ?_⟩
    intro a ha
    rcases List.mem_cons.mp ha with rfl | ha2
    · exact le_trans (ih (boundsStep acc a)).1 hstep_x
    · exact (ih (boundsStep acc x)).2 a ha2

theorem boundsFold_snd_le :
    ∀ (l : List Auction) (acc : Int × Int),
      acc.2 ≤ (l.foldl boundsStep acc).2 ∧
      ∀ a ∈ l, a.endTime ≤ (l.foldl boundsStep acc).2 := by
  intro l
  induction l with
  | nil => intro acc; exact ⟨le_refl _, fun a ha => absurd ha (List.not_mem_nil a)⟩
  | cons x rest ih =>
    intro acc
    simp only [List.foldl_cons]
    have hstep_le : acc.2 ≤ (boundsStep acc x).2 := by
      simp only [boundsStep]
      by_cases hx : acc.2 < x.endTime
      · simp [hx]; exact le_of_lt hx
      · simp [hx]
    have hstep_x : x.endTime ≤ (boundsStep acc x).2 := by
      simp only [boundsStep]
      by_cases hx : acc.2 < x.endTime
      · simp [hx]
      · simp [hx]; exact not_lt.mp hx
    refine ⟨le_trans hstep_le (ih (boundsStep acc x)).1, ?_⟩
    intro a ha
    rcases List.mem_cons.mp ha with rfl | ha2
    · exact le_trans hstep_x (ih (boundsStep acc a)).1
    · exact (ih (boundsStep acc x)).2 a ha2

theorem boundsFold_fst_attained :
    ∀ (l : List Auction) (acc : Int × Int),
      (l.foldl boundsStep acc).1 = acc.1 ∨
      ∃ a ∈ l, (l.foldl boundsStep acc).1 = a.startTime := by
  intro l
  induction l with
  | nil => intro acc; exact Or.inl rfl
  | cons x rest ih =>
    intro acc
    simp only [List.foldl_cons]
    have hstep : (boundsStep acc x).1 = x.startTime ∨ (boundsStep acc x).1 = acc.1 := by
      simp only [boundsStep]
      by_cases hx : x.startTime < acc.1
      · simp [hx]
      · simp [hx]
    rcases ih (boundsStep acc x) with h | h
    · rcases hstep with h2 | h2
      · exact Or.inr ⟨x, List.mem_cons_self _ _, h.trans h2⟩
      · exact Or.inl (h.trans h2)
    · rcases h with ⟨a, ha, h2⟩
      exact Or.inr ⟨a, List.mem_cons_of_mem _ ha, h2⟩

theorem boundsFold_snd_attained :
    ∀ (l : List Auction) (acc : Int × Int),
      (l.foldl boundsStep acc).2 = acc.2 ∨
      ∃ a ∈ l, (l.foldl boundsStep acc).2 = a.endTime := by
  intro l
  induction l with
  | nil => intro acc; exact Or.inl rfl
  | cons x rest ih =>
    intro acc
    simp only [List.foldl_cons]
    have hstep : (boundsStep acc x).2 = x.endTime ∨ (boundsStep acc x).2 = acc.2 := by
      simp only [boundsStep]
      by_cases hx : acc.2 < x.endTime
      · simp [hx]
      · simp [hx]
    rcases ih (boundsStep acc x) with h | h
    · rcases hstep with h2 | h2
      · exact Or.inr ⟨x, List.mem_cons_self _ _, h.trans h2⟩
      · exact Or.inl (h.trans h2)
    · rcases h with ⟨a, ha, h2⟩
      exact Or.inr ⟨a, List.mem_cons_of_mem _ ha, h2⟩

/-- C8: on a non-empty result list the computed global bounds are a lower
bound on every start instant and an upper bound on every end instant, and
each bound is attained by some completed auction. -/
theorem computeBounds_spec (results : List Auction) (h : results ≠ []) :
    ∃ firstStart lastEnd, computeBounds results = some (firstStart, lastEnd) ∧
      (∀ a ∈ results, firstStart ≤ a.startTime) ∧
      (∀ a ∈ results, a.endTime ≤ lastEnd) ∧
      (∃ a ∈ results, firstStart = a.startTime) ∧
      (∃ a ∈ results, lastEnd = a.endTime) := by
  match hr : results with
  | [] => exact absurd rfl h
  | a :: rest =>
    refine ⟨_, _, rfl, ?_, ?_, ?_, ?_⟩
    · exact (boundsFold_fst_le (a :: rest) (a.startTime, a.endTime)).2
    · exact (boundsFold_snd_le (a :: rest) (a.startTime, a.endTime)).2
    · rcases boundsFold_fst_attained (a :: rest) (a.startTime, a.endTime) with h2 | h2
      · exact ⟨a, List.mem_cons_self _ _, h2⟩
      · exact h2
    · rcases boundsFold_snd_attained (a :: rest) (a.startTime, a.endTime) with h2 | h2
      · exact ⟨a, List.mem_cons_self _ _, h2⟩
      · exact h2

/-- Three completed auctions with distinct start and end instants. -/
def sampleResults : List Auction :=
  [{ NewAuction 1 with startTime := 5, endTime := 10 },
   { NewAuction 2 with startTime := 3, endTime := 20 },
   { NewAuction 3 with startTime := 7, endTime := 8 }]

/-- Witness for C8 at a concrete three-auction result list. -/
theorem computeBounds_spec_witness :
    ∃ firstStart lastEnd, computeBounds sampleResults = some (firstStart, lastEnd) ∧
      (∀ a ∈ sampleResults, firstStart ≤ a.startTime) ∧
      (∀ a ∈ sampleResults, a.endTime ≤ lastEnd) ∧
      (∃ a ∈ sampleResults, firstStart = a.startTime) ∧
      (∃ a ∈ sampleResults, lastEnd = a.endTime) :=
  computeBounds_spec sampleResults (by decide)

/-- The bidder identifiers `1..NumBidders` created once by
`manager.NewManager` (`bidder.NewBidder(i + 1)`). -/
def managerBidderIDs : List Nat := (List.range NumBidders).map (· + 1)

/-- Models the per-auction bid submissions: `manager.Run`'s
`notifyBidders` calls `ConsiderBid` exactly once per bidder per auction;
`ConsiderBid` either declines or spawns a single `placeBid`, which builds
at most one bid carrying `BidderID: b.ID`. `outcome id` is `none` when
bidder `id` declines (or its bid is dropped at submission) and
`some (amount, timestamp)` when it submits its one bid. -/
def submittedBids (outcome : Nat → Option (ℚ × Int)) : List Bid :=
  managerBidderIDs.filterMap fun id =>
    (outcome id).map fun p => { bidderID := id, amount := p.1, timestamp := p.2 }

theorem filterMap_outcome_ids_sublist
    (outcome : Nat → Option (ℚ × Int)) :
    ∀ ids : List Nat,
      List.Sublist
        ((ids.filterMap fun id =>
          (outcome id).map fun p =>
            ({ bidderID := id, amount := p.1, timestamp := p.2 } : Bid)).map Bid.bidderID)
        ids := by
  intro ids
  induction ids with
  | nil => simp
  | cons id rest ih =>
    match ho : outcome id with
    | none =>
      simp only [List.filterMap_cons, ho, Option.map_none']
      exact ih.cons id
    | some p =>
      simp only [List.filterMap_cons, ho, Option.map_some', List.map_cons]
      exact ih.cons₂ id

/-- C9: any multiset of bids an auction can end up with is drawn from the
per-bidder submissions (each bidder submits at most one bid carrying its
own identifier, and the manager's bidder identifiers are distinct), so
each bidder identifier occurs at most once in the auction's bid
sequence. -/
theorem collected_bidder_ids_nodup
    (outcome : Nat → Option (ℚ × Int)) (collected : List Bid)
    (hsub : collected.Subperm (submittedBids outcome)) :
    (collected.map Bid.bidderID).Nodup := by
  have hids : List.Sublist ((submittedBids outcome).map Bid.bidderID) managerBidderIDs :=
    filterMap_outcome_ids_sublist outcome managerBidderIDs
  have hnodup : ((submittedBids outcome).map Bid.bidderID).Nodup := by
    refine List.Nodup.sublist hids ?_
    exact (List.nodup_range NumBidders).map (fun a b => by omega)
  have hmapsub :
      (collected.map Bid.bidderID).Subperm ((submittedBids outcome).map Bid.bidderID) := by
    rcases hsub with ⟨l, hl, hs⟩
    exact ⟨l.map Bid.bidderID, hl.map _, hs.map _⟩
  rw [List.nodup_iff_count_le_one]
  intro a
  exact le_trans (hmapsub.count_le a) (List.nodup_iff_count_le_one.mp hnodup a)

/-- Submission outcome in which bidders 1 and 2 bid and all others
decline. -/
def sampleOutcome : Nat → Option (ℚ × Int) :=
  fun id => if id ≤ 2 then some ((id : ℚ), 0) else none

/-- Witness for C9: the collected sequence is the reversal (an arrival
reordering) of the sample submissions. -/
theorem collected_bidder_ids_nodup_witness :
    (((submittedBids sampleOutcome).reverse).map Bid.bidderID).Nodup :=
  collected_bidder_ids_nodup sampleOutcome (submittedBids sampleOutcome).reverse
    ((submittedBids sampleOutcome).reverse_perm.subperm)

end AuctionSim
